import Mathlib

/-!
Verification of the co-occurrence network pipeline (`analyze.py`).

The pipeline reads text rows from CSV documents, tokenizes each row into
sentences of lemmatized, POS-filtered tokens (external analyzer), counts
unordered co-occurring pairs per sentence, builds a thresholded weighted
undirected graph, derives visual attributes and renders the result.

This file embeds the counting, graph-building, visual-attribute and
per-document orchestration logic and proves the specified properties.
-/

namespace Kyouyuunet

/-! ### Lexicographic string order

Python's `sorted` compares strings lexicographically by code point.  We model
it with a structural Boolean comparison on the character lists so that all
definitions evaluate by kernel reduction. -/

/-- Lexicographic strict order on character lists by code point, as Python
compares strings: unequal heads decide, equal heads recurse, a proper prefix
is smaller. -/
def charsLt : List Char → List Char → Bool
  | _, [] => false
  | [], _ :: _ => true
  | a :: as, b :: bs => if a < b then true else if b < a then false else charsLt as bs

/-- Strict lexicographic order on strings. -/
def strLt (a b : String) : Bool := charsLt a.data b.data

/-- Reflexive lexicographic order on strings. -/
def strLe (a b : String) : Bool := !strLt b a

/-- `strLe` as a relation, used for sorting. -/
def strle (a b : String) : Prop := strLe a b = true

/-- `strLt` as a relation. -/
def strlt (a b : String) : Prop := strLt a b = true

instance : DecidableRel strle := fun _ _ => inferInstanceAs (Decidable (_ = true))

instance : DecidableRel strlt := fun _ _ => inferInstanceAs (Decidable (_ = true))

/-! ### The co-occurrence counter (source lines 64-84) -/

/-- The minimum co-occurrence constant `MIN_COOCCURRENCE` from the source. -/
def MIN_COOCCURRENCE : Nat := 3

/-- `sorted(set(words))` from the source: the distinct tokens of a sentence,
lexicographically sorted. -/
def sortedSet (words : List String) : List String :=
  words.dedup.insertionSort strle

/-- `itertools.combinations(l, 2)` from the source: all 2-combinations of a
list, each pair keeping the list's left-to-right order. -/
def pairs2 : List String → List (String × String)
  | [] => []
  | x :: xs => xs.map (fun y => (x, y)) ++ pairs2 xs

/-- The pairs one sentence contributes:
`combinations(sorted(set(words)), 2)` (source line 79). -/
def pairsOfSentence (words : List String) : List (String × String) :=
  pairs2 (sortedSet words)

/-- One `co_occurrence[pair] += 1` step on the counter, modelled as an
association list with Python-dict update semantics (the first matching key
is bumped, a missing key is appended with count 1). -/
def incrCount (c : List ((String × String) × Nat)) (p : String × String) :
    List ((String × String) × Nat) :=
  match c with
  | [] => [(p, 1)]
  | (q, n) :: rest => if q = p then (q, n + 1) :: rest else (q, n) :: incrCount rest p

/-- Counter lookup: the count stored for a pair, 0 when the pair is absent. -/
def countOf (c : List ((String × String) × Nat)) (p : String × String) : Nat :=
  match c with
  | [] => 0
  | (q, n) :: rest => if q = p then n else countOf rest p

/-- The co-occurrence counting loop (source lines 76-80): for each sentence,
every 2-combination of its sorted token set is counted once. -/
def coOccurrence (sentences : List (List String)) : List ((String × String) × Nat) :=
  sentences.foldl (fun c ws => (pairsOfSentence ws).foldl incrCount c) []

/-- The sentence-retention filter (source lines 71-73): a sentence's token
list is kept exactly when its raw (with-duplicates) length exceeds 1. -/
def wordsPerSentence (sentences : List (List String)) : List (List String) :=
  sentences.filter (fun ws => 1 < ws.length)

/-- The canonical key under which an unordered pair of lemmas is stored:
the lexicographically smaller lemma first. -/
def canonPair (a b : String) : String × String :=
  if strLt a b then (a, b) else (b, a)

/-! ### The graph builder (source lines 86-96) -/

/-- A `networkx.Graph` as built here: nodes in insertion order, and weighted
undirected edges stored once with their endpoints in insertion order. -/
structure Graph where
  nodes : List String
  edges : List ((String × String) × Nat)
  deriving Repr, DecidableEq

/-- Add a node unless it is already present (as `networkx` does implicitly
when an edge endpoint is new). -/
def addNode (ns : List String) (x : String) : List String :=
  if x ∈ ns then ns else ns ++ [x]

/-- Whether two stored endpoint pairs denote the same undirected edge. -/
def sameEdge (p q : String × String) : Bool :=
  decide ((p.1 = q.1 ∧ p.2 = q.2) ∨ (p.1 = q.2 ∧ p.2 = q.1))

/-- `G.add_edge(u, v, weight=w)`: both endpoints are created if absent, and
any existing edge between the two endpoints is replaced. -/
def addEdge (g : Graph) (u v : String) (w : Nat) : Graph :=
  { nodes := addNode (addNode g.nodes u) v
    edges := g.edges.filter (fun e => !sameEdge e.1 (u, v)) ++ [((u, v), w)] }

/-- The graph-construction loop (source lines 87-92): every counted pair
whose count reaches the threshold becomes an edge with `weight = count`. -/
def buildGraph (table : List ((String × String) × Nat)) (minCo : Nat) : Graph :=
  table.foldl
    (fun g e => if minCo ≤ e.2 then addEdge g e.1.1 e.1.2 e.2 else g)
    ⟨[], []⟩

/-- The weight stored on the undirected edge between `u` and `v`, if any. -/
def edgeWeight (g : Graph) (u v : String) : Option Nat :=
  (g.edges.find? (fun e => sameEdge e.1 (u, v))).map (fun e => e.2)

/-- The count a table holds for the unordered pair `{u, v}`, if present. -/
def tableWeight (table : List ((String × String) × Nat)) (u v : String) :
    Option Nat :=
  (table.find? (fun e => sameEdge e.1 (u, v))).map (fun e => e.2)

/-! ### Derived visual attributes (source lines 98-105) -/

/-- `G.degree(weight='weight')` for one node: the sum of the weights of all
incident edges. -/
def weightedDegree (g : Graph) (x : String) : Nat :=
  (g.edges.filter (fun e => decide (e.1.1 = x ∨ e.1.2 = x))).foldl
    (fun s e => s + e.2) 0

/-- `node_size = [d * 100 for n, d in G.degree(weight='weight')]`
(source line 102). -/
def nodeSize (g : Graph) : List Nat :=
  g.nodes.map (fun x => weightedDegree g x * 100)

/-- `edge_width = [d['weight'] * 0.5 for u, v, d in G.edges(data=True)]`
(source line 105). -/
def edgeWidth (g : Graph) : List ℚ :=
  g.edges.map (fun e => (e.2 : ℚ) * (1 / 2))

/-! ### Per-document orchestration (source lines 23-138)

`analyze_and_create_network` handles one document.  Decode/parse failures of
the CSV loader are caught by the encoding-fallback loop (lines 38-49), and
the column-selection/`dropna` block sits in a `try/except` (lines 51-62);
everything else — loading the spaCy model and running it (lines 65-73),
counting, graph construction, and rendering (lines 99-121) — runs outside
any handler, and the `__main__` loop (lines 135-137) wraps the per-document
call in no handler either, so an exception there propagates.

External effects are modelled by a per-document record saying which
collaborator calls fail and what the tokenizer returns. -/

/-- One input document together with the behaviour of the external
collaborators on it. -/
structure DocRun where
  /-- Some encoding in the fallback list parses the file (decode/parse
  errors of the loader are consumed by the fallback loop). -/
  loadOk : Bool
  /-- The requested column index exists in the loaded frame. -/
  colOk : Bool
  /-- An exception is raised inside the column-selection/`dropna`
  `try` block. -/
  procExc : Bool
  /-- Tokenizer output: for each non-null text row, its sentences, each a
  list of lemmatized POS-filtered tokens.  Empty iff no text rows remain
  after `dropna`. -/
  rows : List (List (List String))
  /-- An exception is raised while loading or running the morphological
  analyzer. -/
  nlpExc : Bool
  /-- An exception is raised while drawing or saving the figure. -/
  renderExc : Bool
  deriving Repr, DecidableEq

/-- Terminal outcome of one document. -/
inductive Outcome where
  | skippedLoad
  | skippedCol
  | skippedProcErr
  | skippedNoText
  | skippedNoPairs
  | skippedEmptyGraph
  | rendered
  deriving Repr, DecidableEq

/-- `analyze_and_create_network` for one document: `Except.ok` is a normal
return (possibly a reported skip), `Except.error` is an exception escaping
the function. -/
def analyzeDoc (d : DocRun) (minCo : Nat) : Except String Outcome :=
  if d.loadOk = false then .ok .skippedLoad
  else if d.procExc then .ok .skippedProcErr
  else if d.colOk = false then .ok .skippedCol
  else if d.rows.isEmpty then .ok .skippedNoText
  else if d.nlpExc then .error "exception in morphological analysis"
  else if (coOccurrence (wordsPerSentence d.rows.flatten)).isEmpty then
    .ok .skippedNoPairs
  else if (buildGraph (coOccurrence (wordsPerSentence d.rows.flatten))
      minCo).nodes.isEmpty then
    .ok .skippedEmptyGraph
  else if d.renderExc then .error "exception during rendering"
  else .ok .rendered

/-- The `__main__` loop: each document in turn, with no handler around the
per-document call, so the first escaping exception aborts the run. -/
def runAll (docs : List DocRun) (minCo : Nat) : Except String (List Outcome) :=
  match docs with
  | [] => .ok []
  | d :: ds =>
    match analyzeDoc d minCo with
    | .error e => .error e
    | .ok o =>
      match runAll ds minCo with
      | .error e => .error e
      | .ok os => .ok (o :: os)

/-! ### Spec-side auxiliary notions -/

/-- The data-model invariant of a Pair Count Table: it is a mapping (no key
occurs twice) whose keys are canonically ordered pairs of distinct lemmas. -/
def wellFormedTable (table : List ((String × String) × Nat)) : Prop :=
  (table.map Prod.fst).Nodup ∧ ∀ p ∈ table.map Prod.fst, strLt p.1 p.2 = true

instance (table : List ((String × String) × Nat)) :
    Decidable (wellFormedTable table) := by
  unfold wellFormedTable; infer_instance

/-- The weighted degree as the spec words it: the sum, over all edges of the
graph, of the weight of each edge incident to the node. -/
def specWeightedDegree (g : Graph) (x : String) : Nat :=
  (g.edges.map (fun e => if e.1.1 = x ∨ e.1.2 = x then e.2 else 0)).sum

/-- Number of occurrences of a pair in a list of pairs. -/
def occCount (ps : List (String × String)) (q : String × String) : Nat :=
  match ps with
  | [] => 0
  | p :: rest => (if p = q then 1 else 0) + occCount rest q

/-- Well-formedness plus count positivity: what the counter maintains. -/
def goodTable (table : List ((String × String) × Nat)) : Prop :=
  wellFormedTable table ∧ ∀ e ∈ table, 0 < e.2

/-! ### Order facts about the lexicographic comparison -/

theorem charsLt_irrefl (l : List Char) : charsLt l l = false := by
  induction l with
  | nil => rfl
  | cons a as ih => simp [charsLt, ih]

theorem charsLt_asymm :
    ∀ {l₁ l₂ : List Char}, charsLt l₁ l₂ = true → charsLt l₂ l₁ = false := by
  intro l₁
  induction l₁ with
  | nil =>
    intro l₂ h
    cases l₂ with
    | nil => rfl
    | cons b bs => rfl
  | cons a as ih =>
    intro l₂ h
    cases l₂ with
    | nil => simp [charsLt] at h
    | cons b bs =>
      simp only [charsLt] at h ⊢
      by_cases hab : a < b
      · rw [if_neg (asymm hab), if_pos hab]
      · rw [if_neg hab] at h
        by_cases hba : b < a
        · rw [if_pos hba] at h; exact absurd h (by simp)
        · rw [if_neg hba] at h
          rw [if_neg hba, if_neg hab]
          exact ih h

theorem charsLt_trans :
    ∀ {l₁ l₂ l₃ : List Char},
      charsLt l₁ l₂ = true → charsLt l₂ l₃ = true → charsLt l₁ l₃ = true := by
  intro l₁
  induction l₁ with
  | nil =>
    intro l₂ l₃ h₁ h₂
    cases l₃ with
    | nil => cases l₂ <;> simp [charsLt] at h₁ h₂
    | cons c cs => rfl
  | cons a as ih =>
    intro l₂ l₃ h₁ h₂
    cases l₂ with
    | nil => simp [charsLt] at h₁
    | cons b bs =>
      cases l₃ with
      | nil => simp [charsLt] at h₂
      | cons c cs =>
        simp only [charsLt] at h₁ h₂ ⊢
        by_cases hab : a < b
        · by_cases hbc : b < c
          · rw [if_pos (lt_trans hab hbc)]
          · rw [if_neg hbc] at h₂
            by_cases hcb : c < b
            · rw [if_pos hcb] at h₂; exact absurd h₂ (by simp)
            · have hbc' : b = c := le_antisymm (not_lt.mp hcb) (not_lt.mp hbc)
              rw [if_pos (hbc' ▸ hab)]
        · rw [if_neg hab] at h₁
          by_cases hba : b < a
          · rw [if_pos hba] at h₁; exact absurd h₁ (by simp)
          · rw [if_neg hba] at h₁
            have hab' : a = b := le_antisymm (not_lt.mp hba) (not_lt.mp hab)
            subst hab'
            by_cases hac : a < c
            · rw [if_pos hac]
            · rw [if_neg hac] at h₂ ⊢
              by_cases hca : c < a
              · rw [if_pos hca] at h₂; exact absurd h₂ (by simp)
              · rw [if_neg hca] at h₂ ⊢
                exact ih h₁ h₂

theorem eq_of_charsLt_false :
    ∀ {l₁ l₂ : List Char},
      charsLt l₁ l₂ = false → charsLt l₂ l₁ = false → l₁ = l₂ := by
  intro l₁
  induction l₁ with
  | nil =>
    intro l₂ h₁ _
    cases l₂ with
    | nil => rfl
    | cons b bs => simp [charsLt] at h₁
  | cons a as ih =>
    intro l₂ h₁ h₂
    cases l₂ with
    | nil => simp [charsLt] at h₂
    | cons b bs =>
      simp only [charsLt] at h₁ h₂
      by_cases hab : a < b
      · rw [if_pos hab] at h₁; exact absurd h₁ (by simp)
      · by_cases hba : b < a
        · rw [if_pos hba] at h₂; exact absurd h₂ (by simp)
        · rw [if_neg hab, if_neg hba] at h₁
          rw [if_neg hba, if_neg hab] at h₂
          have : a = b := le_antisymm (not_lt.mp hba) (not_lt.mp hab)
          rw [this, ih h₁ h₂]

theorem strLt_irrefl (a : String) : strLt a a = false :=
  charsLt_irrefl a.data

theorem strLt_asymm {a b : String} (h : strLt a b = true) : strLt b a = false :=
  charsLt_asymm h

theorem eq_of_strLt_false {a b : String}
    (h₁ : strLt a b = false) (h₂ : strLt b a = false) : a = b := by
  have h : a.data = b.data := eq_of_charsLt_false h₁ h₂
  exact congrArg String.mk h

theorem strLt_of_strle_of_ne {a b : String} (h : strle a b) (hne : a ≠ b) :
    strlt a b := by
  unfold strle strLe at h
  unfold strlt
  by_cases hab : strLt a b = true
  · exact hab
  · have h' : strLt b a = false := by
      cases hba : strLt b a with
      | false => rfl
      | true => rw [hba] at h; exact absurd h (by simp)
    exact absurd (eq_of_strLt_false (by simpa using hab) h') hne

instance : IsTotal String strle where
  total a b := by
    unfold strle strLe
    cases h : strLt b a with
    | false => exact Or.inl (by simp)
    | true => exact Or.inr (by simp [strLt_asymm h])

instance : IsTrans String strle where
  trans a b c hab hbc := by
    unfold strle strLe at hab hbc ⊢
    simp only [Bool.not_eq_true'] at hab hbc ⊢
    by_cases hca : strLt c a = true
    · by_cases hbc' : strLt b c = true
      · have : strLt b a = true := charsLt_trans hbc' hca
        rw [this] at hab; exact absurd hab (by simp)
      · have hcb : strLt c b = false := hbc
        have : b = c := eq_of_strLt_false (by simpa using hbc') hcb
        rw [this] at hab
        rw [hca] at hab; exact absurd hab (by simp)
    · simpa using hca

/-! ### The sorted token set and the enumeration of its 2-combinations -/

theorem mem_sortedSet {ws : List String} {a : String} :
    a ∈ sortedSet ws ↔ a ∈ ws := by
  unfold sortedSet
  rw [List.mem_insertionSort, List.mem_dedup]

theorem sortedSet_nodup (ws : List String) : (sortedSet ws).Nodup :=
  (List.perm_insertionSort strle ws.dedup).nodup_iff.mpr (List.nodup_dedup ws)

theorem pairwise_lt_of_sorted_nodup :
    ∀ {l : List String}, l.Pairwise strle → l.Nodup → l.Pairwise strlt := by
  intro l
  induction l with
  | nil => intro _ _; exact List.Pairwise.nil
  | cons x xs ih =>
    intro hs hn
    rw [List.pairwise_cons] at hs ⊢
    rw [List.nodup_cons] at hn
    refine ⟨fun y hy => strLt_of_strle_of_ne (hs.1 y hy) ?_, ih hs.2 hn.2⟩
    intro hxy; exact hn.1 (hxy ▸ hy)

theorem sortedSet_pairwise_lt (ws : List String) :
    (sortedSet ws).Pairwise strlt :=
  pairwise_lt_of_sorted_nodup (List.sorted_insertionSort strle ws.dedup)
    (sortedSet_nodup ws)

theorem not_strlt_self (a : String) : ¬ strlt a a := by
  unfold strlt
  rw [strLt_irrefl]
  simp

theorem ne_of_strlt {a b : String} (h : strlt a b) : a ≠ b := by
  intro he
  exact not_strlt_self b (he ▸ h)

theorem mem_pairs2 :
    ∀ {l : List String}, l.Pairwise strlt → ∀ {a b : String},
      ((a, b) ∈ pairs2 l ↔ a ∈ l ∧ b ∈ l ∧ strLt a b = true) := by
  intro l
  induction l with
  | nil => intro _ a b; simp [pairs2]
  | cons x xs ih =>
    intro hl a b
    rw [List.pairwise_cons] at hl
    rw [pairs2, List.mem_append, List.mem_map]
    constructor
    · intro h
      rcases h with ⟨y, hy, hxy⟩ | h
      · injection hxy with h1 h2
        subst h1; subst h2
        exact ⟨List.mem_cons_self .., List.mem_cons_of_mem _ hy, hl.1 _ hy⟩
      · obtain ⟨ha, hb, hab⟩ := (ih hl.2).mp h
        exact ⟨List.mem_cons_of_mem _ ha, List.mem_cons_of_mem _ hb, hab⟩
    · rintro ⟨ha, hb, hab⟩
      rw [List.mem_cons] at ha hb
      rcases ha with rfl | ha
      · rcases hb with hba | hb
        · rw [hba, strLt_irrefl] at hab
          exact absurd hab (by simp)
        · exact Or.inl ⟨b, hb, rfl⟩
      · rcases hb with hbx | hb
        · have h1 : strLt b a = true := hbx ▸ hl.1 a ha
          rw [strLt_asymm h1] at hab
          exact absurd hab (by simp)
        · exact Or.inr ((ih hl.2).mpr ⟨ha, hb, hab⟩)

theorem nodup_pairs2 :
    ∀ {l : List String}, l.Pairwise strlt → (pairs2 l).Nodup := by
  intro l
  induction l with
  | nil => exact fun _ => List.Pairwise.nil
  | cons x xs ih =>
    intro hl
    rw [List.pairwise_cons] at hl
    rw [pairs2, List.nodup_append]
    have hxs : xs.Nodup := hl.2.imp (fun {a b} hab => ne_of_strlt hab)
    refine ⟨hxs.map (fun y z h => ?_), ih hl.2, fun p hp hq => ?_⟩
    · simpa using congrArg Prod.snd h
    · rw [List.mem_map] at hp
      obtain ⟨y, _, rfl⟩ := hp
      obtain ⟨ha, _, _⟩ := (mem_pairs2 hl.2).mp hq
      exact ne_of_strlt (hl.1 x ha) rfl

/-- The pairs one sentence contributes, characterized: exactly the
canonically ordered pairs of two distinct tokens of the sentence. -/
theorem mem_pairsOfSentence {ws : List String} {a b : String} :
    (a, b) ∈ pairsOfSentence ws ↔ a ∈ ws ∧ b ∈ ws ∧ strLt a b = true := by
  unfold pairsOfSentence
  rw [mem_pairs2 (sortedSet_pairwise_lt ws), mem_sortedSet, mem_sortedSet]

theorem nodup_pairsOfSentence (ws : List String) :
    (pairsOfSentence ws).Nodup :=
  nodup_pairs2 (sortedSet_pairwise_lt ws)

theorem occCount_eq_zero_of_not_mem {ps : List (String × String)}
    {q : String × String} (h : q ∉ ps) : occCount ps q = 0 := by
  induction ps with
  | nil => rfl
  | cons p rest ih =>
    rw [List.mem_cons, not_or] at h
    rw [occCount, if_neg (fun he => h.1 he.symm), ih h.2]

theorem occCount_eq_one_of_mem :
    ∀ {ps : List (String × String)} {q : String × String},
      ps.Nodup → q ∈ ps → occCount ps q = 1 := by
  intro ps
  induction ps with
  | nil => intro q _ h; cases h
  | cons p rest ih =>
    intro q hn hq
    rw [List.nodup_cons] at hn
    rw [List.mem_cons] at hq
    rcases hq with rfl | hq
    · rw [occCount, if_pos rfl, occCount_eq_zero_of_not_mem hn.1]
    · rw [occCount, if_neg (fun he => hn.1 (by rw [he]; exact hq)), ih hn.2 hq]

theorem count_pairsOfSentence (ws : List String) (a b : String) :
    occCount (pairsOfSentence ws) (a, b) =
      if a ∈ ws ∧ b ∈ ws ∧ strLt a b = true then 1 else 0 := by
  by_cases h : a ∈ ws ∧ b ∈ ws ∧ strLt a b = true
  · rw [if_pos h]
    exact occCount_eq_one_of_mem (nodup_pairsOfSentence ws)
      (mem_pairsOfSentence.mpr h)
  · rw [if_neg h]
    exact occCount_eq_zero_of_not_mem (fun hc => h (mem_pairsOfSentence.mp hc))

/-! ### Accumulation facts about the counter -/

theorem countOf_incrCount (c : List ((String × String) × Nat))
    (p q : String × String) :
    countOf (incrCount c p) q = countOf c q + if q = p then 1 else 0 := by
  induction c with
  | nil =>
    simp only [incrCount, countOf]
    by_cases h : p = q
    · subst h; simp
    · rw [if_neg h, if_neg (fun hh => h hh.symm)]
  | cons e rest ih =>
    obtain ⟨k, n⟩ := e
    simp only [incrCount]
    by_cases hkp : k = p
    · rw [if_pos hkp]
      simp only [countOf]
      by_cases hkq : k = q
      · rw [if_pos hkq, if_pos hkq, if_pos (hkq.symm.trans hkp)]
      · rw [if_neg hkq, if_neg hkq,
          if_neg (fun hqp => hkq (hkp.trans hqp.symm))]
        omega
    · rw [if_neg hkp]
      simp only [countOf]
      by_cases hkq : k = q
      · rw [if_pos hkq, if_pos hkq, if_neg (fun hqp => hkp (hkq.trans hqp))]
        omega
      · rw [if_neg hkq, if_neg hkq]
        exact ih

theorem countOf_foldl_incr (ps : List (String × String)) :
    ∀ (c : List ((String × String) × Nat)) (q : String × String),
      countOf (ps.foldl incrCount c) q = countOf c q + occCount ps q := by
  induction ps with
  | nil => intro c q; simp [occCount]
  | cons p rest ih =>
    intro c q
    rw [List.foldl_cons, ih, countOf_incrCount, occCount]
    by_cases h : p = q
    · rw [if_pos h, if_pos h.symm]; omega
    · rw [if_neg h, if_neg (fun hh => h hh.symm)]; omega

theorem countOf_coOccurrence (ss : List (List String)) (q : String × String) :
    countOf (coOccurrence ss) q =
      (ss.map (fun ws => occCount (pairsOfSentence ws) q)).sum := by
  suffices h : ∀ (l : List (List String)) (c : List ((String × String) × Nat)),
      countOf (l.foldl (fun c ws => (pairsOfSentence ws).foldl incrCount c) c) q =
        countOf c q + (l.map (fun ws => occCount (pairsOfSentence ws) q)).sum by
    simpa [coOccurrence, countOf] using h ss []
  intro l
  induction l with
  | nil => intro c; simp
  | cons ws rest ih =>
    intro c
    rw [List.foldl_cons, ih, countOf_foldl_incr, List.map_cons, List.sum_cons]
    omega

/-- The central counting theorem: the count stored under a canonically
ordered pair equals the number of sentences whose tokens contain both
words. -/
theorem countOf_coOccurrence_canonical (ss : List (List String))
    (a b : String) (h : strLt a b = true) :
    countOf (coOccurrence ss) (a, b) =
      (ss.filter (fun ws => decide (a ∈ ws ∧ b ∈ ws))).length := by
  rw [countOf_coOccurrence]
  induction ss with
  | nil => rfl
  | cons ws rest ih =>
    rw [List.map_cons, List.sum_cons, count_pairsOfSentence, List.filter_cons]
    by_cases hm : a ∈ ws ∧ b ∈ ws
    · rw [if_pos ⟨hm.1, hm.2, h⟩]
      have hd : decide (a ∈ ws ∧ b ∈ ws) = true := by simpa using hm
      simp only [hd, if_true, List.length_cons]
      rw [ih]
      omega
    · rw [if_neg (fun hc => hm ⟨hc.1, hc.2.1⟩)]
      have hd : decide (a ∈ ws ∧ b ∈ ws) = false := by simpa using hm
      simp only [hd, Bool.false_eq_true, if_false]
      rw [ih]
      omega

/-! ### Structural invariants of the counter -/

theorem keys_incrCount (c : List ((String × String) × Nat))
    (p : String × String) :
    (incrCount c p).map Prod.fst =
      if p ∈ c.map Prod.fst then c.map Prod.fst
      else c.map Prod.fst ++ [p] := by
  induction c with
  | nil => simp [incrCount]
  | cons e rest ih =>
    obtain ⟨k, n⟩ := e
    simp only [incrCount]
    by_cases hk : k = p
    · subst hk
      rw [if_pos rfl, List.map_cons, List.map_cons,
        if_pos (List.mem_cons_self ..)]
    · rw [if_neg hk, List.map_cons, List.map_cons, ih]
      by_cases hp : p ∈ rest.map Prod.fst
      · rw [if_pos hp, if_pos (List.mem_cons_of_mem _ hp)]
      · have hnc : p ∉ (k, n).1 :: rest.map Prod.fst := by
          rw [List.mem_cons]
          push_neg
          exact ⟨fun hh => hk hh.symm, hp⟩
        rw [if_neg hp, if_neg hnc, List.cons_append]

theorem values_incrCount {c : List ((String × String) × Nat)}
    {p : String × String} (hc : ∀ e ∈ c, 0 < e.2) :
    ∀ e ∈ incrCount c p, 0 < e.2 := by
  induction c with
  | nil =>
    intro e he
    simp only [incrCount, List.mem_singleton] at he
    subst he; exact Nat.one_pos
  | cons f rest ih =>
    obtain ⟨k, n⟩ := f
    intro e he
    simp only [incrCount] at he
    by_cases hk : k = p
    · rw [if_pos hk, List.mem_cons] at he
      rcases he with rfl | he
      · exact Nat.succ_pos n
      · exact hc e (List.mem_cons_of_mem _ he)
    · rw [if_neg hk, List.mem_cons] at he
      rcases he with rfl | he
      · exact hc (k, n) (List.mem_cons_self ..)
      · exact ih (fun f hf => hc f (List.mem_cons_of_mem _ hf)) e he

theorem goodTable_incrCount {c : List ((String × String) × Nat)}
    {p : String × String} (hc : goodTable c) (hp : strLt p.1 p.2 = true) :
    goodTable (incrCount c p) := by
  obtain ⟨⟨hnodup, hlt⟩, hpos⟩ := hc
  refine ⟨⟨?_, ?_⟩, values_incrCount hpos⟩
  · rw [keys_incrCount]
    by_cases hmem : p ∈ c.map Prod.fst
    · rw [if_pos hmem]; exact hnodup
    · rw [if_neg hmem]
      exact List.Nodup.append hnodup (List.nodup_singleton p)
        (by simpa using hmem)
  · intro q hq
    rw [keys_incrCount] at hq
    by_cases hmem : p ∈ c.map Prod.fst
    · rw [if_pos hmem] at hq; exact hlt q hq
    · rw [if_neg hmem, List.mem_append, List.mem_singleton] at hq
      rcases hq with hq | rfl
      · exact hlt q hq
      · exact hp

theorem goodTable_foldl_incr {ps : List (String × String)}
    (hps : ∀ p ∈ ps, strLt p.1 p.2 = true) :
    ∀ {c : List ((String × String) × Nat)}, goodTable c →
      goodTable (ps.foldl incrCount c) := by
  induction ps with
  | nil => intro c hc; exact hc
  | cons p rest ih =>
    intro c hc
    rw [List.foldl_cons]
    exact ih (fun q hq => hps q (List.mem_cons_of_mem _ hq))
      (goodTable_incrCount hc (hps p (List.mem_cons_self ..)))

/-- The counter's output always satisfies the table invariants: distinct,
canonically ordered keys and positive counts. -/
theorem goodTable_coOccurrence (ss : List (List String)) :
    goodTable (coOccurrence ss) := by
  suffices h : ∀ (l : List (List String)) (c : List ((String × String) × Nat)),
      goodTable c →
      goodTable (l.foldl (fun c ws => (pairsOfSentence ws).foldl incrCount c) c) by
    exact h ss [] ⟨⟨List.nodup_nil, by simp⟩, by simp⟩
  intro l
  induction l with
  | nil => intro c hc; exact hc
  | cons ws rest ih =>
    intro c hc
    rw [List.foldl_cons]
    refine ih _ (goodTable_foldl_incr (fun p hp => ?_) hc)
    obtain ⟨a, b⟩ := p
    exact (mem_pairsOfSentence.mp hp).2.2

/-! ### The graph builder, characterized -/

theorem mem_addNode {ns : List String} {x y : String} :
    x ∈ addNode ns y ↔ x ∈ ns ∨ x = y := by
  unfold addNode
  by_cases h : y ∈ ns
  · rw [if_pos h]
    exact ⟨Or.inl, fun hx => hx.elim id (fun he => he ▸ h)⟩
  · rw [if_neg h, List.mem_append, List.mem_singleton]

theorem nodup_addNode {ns : List String} {y : String} (h : ns.Nodup) :
    (addNode ns y).Nodup := by
  unfold addNode
  by_cases hy : y ∈ ns
  · rw [if_pos hy]; exact h
  · rw [if_neg hy]
    exact List.Nodup.append h (List.nodup_singleton y) (by simpa using hy)

theorem sameEdge_of_wf {t : List ((String × String) × Nat)}
    (h : wellFormedTable t) :
    (t.map Prod.fst).Pairwise (fun p q => sameEdge p q = false) := by
  refine List.Pairwise.imp_of_mem ?_ h.1
  intro p q hp hq hne
  have hpc := h.2 p hp
  have hqc := h.2 q hq
  unfold sameEdge
  rw [decide_eq_false_iff_not]
  rintro (⟨h1, h2⟩ | ⟨h1, h2⟩)
  · exact hne (Prod.ext h1 h2)
  · rw [h1, h2] at hpc
    rw [strLt_asymm hqc] at hpc
    exact absurd hpc (by simp)

theorem buildGraph_go_edges (minCo : Nat) :
    ∀ (t : List ((String × String) × Nat)) (g : Graph),
      (∀ e ∈ g.edges, ∀ f ∈ t, sameEdge e.1 f.1 = false) →
      (t.map Prod.fst).Pairwise (fun p q => sameEdge p q = false) →
      (t.foldl
          (fun g e => if minCo ≤ e.2 then addEdge g e.1.1 e.1.2 e.2 else g)
          g).edges =
        g.edges ++ t.filter (fun e => decide (minCo ≤ e.2)) := by
  intro t
  induction t with
  | nil => intro g _ _; simp
  | cons e t ih =>
    intro g hdis hpw
    rw [List.map_cons, List.pairwise_cons] at hpw
    rw [List.foldl_cons]
    by_cases hw : minCo ≤ e.2
    · rw [if_pos hw]
      have hfil : (addEdge g e.1.1 e.1.2 e.2).edges = g.edges ++ [e] := by
        unfold addEdge
        have : g.edges.filter (fun x => !sameEdge x.1 (e.1.1, e.1.2)) =
            g.edges := by
          apply List.filter_eq_self.mpr
          intro x hx
          rw [hdis x hx e (List.mem_cons_self ..)]
          rfl
        rw [this]
      rw [ih (addEdge g e.1.1 e.1.2 e.2) ?_ hpw.2]
      · rw [hfil, List.filter_cons, if_pos (by simpa using hw),
          List.append_assoc, List.singleton_append]
      · intro x hx f hf
        rw [hfil, List.mem_append, List.mem_singleton] at hx
        rcases hx with hx | rfl
        · exact hdis x hx f (List.mem_cons_of_mem _ hf)
        · exact hpw.1 f.1 (List.mem_map_of_mem Prod.fst hf)
    · rw [if_neg hw, ih g (fun x hx f hf => hdis x hx f (List.mem_cons_of_mem _ hf)) hpw.2,
        List.filter_cons, if_neg (by simpa using hw)]

/-- Under the table invariant, the built graph's edge list is exactly the
table filtered to the threshold. -/
theorem edges_buildGraph {table : List ((String × String) × Nat)}
    (minCo : Nat) (h : wellFormedTable table) :
    (buildGraph table minCo).edges =
      table.filter (fun e => decide (minCo ≤ e.2)) := by
  unfold buildGraph
  rw [buildGraph_go_edges minCo table ⟨[], []⟩ (by intro e he; cases he)
    (sameEdge_of_wf h)]
  rfl

theorem buildGraph_go_nodes (minCo : Nat) (x : String) :
    ∀ (t : List ((String × String) × Nat)) (g : Graph),
      (x ∈ (t.foldl
          (fun g e => if minCo ≤ e.2 then addEdge g e.1.1 e.1.2 e.2 else g)
          g).nodes ↔
        x ∈ g.nodes ∨ ∃ e ∈ t, minCo ≤ e.2 ∧ (x = e.1.1 ∨ x = e.1.2)) := by
  intro t
  induction t with
  | nil => intro g; simp
  | cons e t ih =>
    intro g
    rw [List.foldl_cons]
    by_cases hw : minCo ≤ e.2
    · rw [if_pos hw, ih]
      unfold addEdge
      constructor
      · rintro (hx | hx)
        · rw [mem_addNode, mem_addNode] at hx
          rcases hx with (hx | rfl) | rfl
          · exact Or.inl hx
          · exact Or.inr ⟨e, List.mem_cons_self .., hw, Or.inl rfl⟩
          · exact Or.inr ⟨e, List.mem_cons_self .., hw, Or.inr rfl⟩
        · obtain ⟨f, hf, hwf, hxf⟩ := hx
          exact Or.inr ⟨f, List.mem_cons_of_mem _ hf, hwf, hxf⟩
      · rintro (hx | ⟨f, hf, hwf, hxf⟩)
        · exact Or.inl (by rw [mem_addNode, mem_addNode]; exact Or.inl (Or.inl hx))
        · rw [List.mem_cons] at hf
          rcases hf with rfl | hf
          · refine Or.inl ?_
            rw [mem_addNode, mem_addNode]
            rcases hxf with rfl | rfl
            · exact Or.inl (Or.inr rfl)
            · exact Or.inr rfl
          · exact Or.inr ⟨f, hf, hwf, hxf⟩
    · rw [if_neg hw, ih]
      constructor
      · rintro (hx | ⟨f, hf, hwf, hxf⟩)
        · exact Or.inl hx
        · exact Or.inr ⟨f, List.mem_cons_of_mem _ hf, hwf, hxf⟩
      · rintro (hx | ⟨f, hf, hwf, hxf⟩)
        · exact Or.inl hx
        · rw [List.mem_cons] at hf
          rcases hf with rfl | hf
          · exact absurd hwf hw
          · exact Or.inr ⟨f, hf, hwf, hxf⟩

/-- A lemma name summarizing node membership in the built graph: a word is
a node exactly when it is an endpoint of some table entry at or above the
threshold. -/
theorem mem_nodes_buildGraph {table : List ((String × String) × Nat)}
    {minCo : Nat} {x : String} :
    x ∈ (buildGraph table minCo).nodes ↔
      ∃ e ∈ table, minCo ≤ e.2 ∧ (x = e.1.1 ∨ x = e.1.2) := by
  unfold buildGraph
  rw [buildGraph_go_nodes minCo x table ⟨[], []⟩]
  simp

theorem buildGraph_go_nodes_nodup (minCo : Nat) :
    ∀ (t : List ((String × String) × Nat)) (g : Graph), g.nodes.Nodup →
      (t.foldl
          (fun g e => if minCo ≤ e.2 then addEdge g e.1.1 e.1.2 e.2 else g)
          g).nodes.Nodup := by
  intro t
  induction t with
  | nil => intro g hg; exact hg
  | cons e t ih =>
    intro g hg
    rw [List.foldl_cons]
    by_cases hw : minCo ≤ e.2
    · rw [if_pos hw]
      exact ih _ (nodup_addNode (nodup_addNode hg))
    · rw [if_neg hw]
      exact ih _ hg

theorem nodes_buildGraph_nodup (table : List ((String × String) × Nat))
    (minCo : Nat) : (buildGraph table minCo).nodes.Nodup :=
  buildGraph_go_nodes_nodup minCo table ⟨[], []⟩ List.nodup_nil

/-! ### Degenerate sentences and dedup invariance -/

theorem pairsOfSentence_eq_nil_of_small {ws : List String}
    (h : ws.dedup.length ≤ 1) : pairsOfSentence ws = [] := by
  unfold pairsOfSentence sortedSet
  have hlen : (ws.dedup.insertionSort strle).length ≤ 1 := by
    rw [(List.perm_insertionSort strle ws.dedup).length_eq]
    exact h
  cases hl : ws.dedup.insertionSort strle with
  | nil => rfl
  | cons x t =>
    cases t with
    | nil => rfl
    | cons y rest =>
      rw [hl] at hlen
      simp at hlen

theorem pairsOfSentence_dedup (ws : List String) :
    pairsOfSentence ws.dedup = pairsOfSentence ws := by
  unfold pairsOfSentence sortedSet
  rw [List.dedup_idem]

theorem coOccurrence_dedup_invariant (ss : List (List String)) :
    coOccurrence (ss.map List.dedup) = coOccurrence ss := by
  unfold coOccurrence
  rw [List.foldl_map]
  have h : (fun (c : List ((String × String) × Nat)) ws =>
      (pairsOfSentence (List.dedup ws)).foldl incrCount c) =
      fun c ws => (pairsOfSentence ws).foldl incrCount c := by
    funext c ws
    rw [pairsOfSentence_dedup]
  rw [h]

theorem coOccurrence_filter_equiv :
    ∀ (ss : List (List String)) (c : List ((String × String) × Nat)),
      (ss.filter (fun ws => decide (1 < ws.length))).foldl
          (fun c ws => (pairsOfSentence ws).foldl incrCount c) c =
        (ss.filter (fun ws => decide (1 < ws.dedup.length))).foldl
          (fun c ws => (pairsOfSentence ws).foldl incrCount c) c := by
  intro ss
  induction ss with
  | nil => intro c; rfl
  | cons ws rest ih =>
    intro c
    rw [List.filter_cons, List.filter_cons]
    by_cases h2 : 1 < ws.dedup.length
    · have h1 : 1 < ws.length :=
        lt_of_lt_of_le h2 (List.Sublist.length_le (List.dedup_sublist ws))
      rw [if_pos (decide_eq_true h1), if_pos (decide_eq_true h2),
        List.foldl_cons, List.foldl_cons]
      exact ih _
    · by_cases h1 : 1 < ws.length
      · rw [if_pos (decide_eq_true h1),
          if_neg (by simpa using h2), List.foldl_cons]
        have hnil : (pairsOfSentence ws).foldl incrCount c = c := by
          rw [pairsOfSentence_eq_nil_of_small (by omega)]
          rfl
        rw [hnil]
        exact ih c
      · rw [if_neg (by simpa using h1), if_neg (by simpa using h2)]
        exact ih c

/-! ### Visual attributes -/

theorem foldl_add_fixed :
    ∀ (es : List ((String × String) × Nat)) (a : Nat),
      es.foldl (fun s e => s + e.2) a = a + (es.map (fun e => e.2)).sum := by
  intro es
  induction es with
  | nil => intro a; simp
  | cons e rest ih =>
    intro a
    rw [List.foldl_cons, ih, List.map_cons, List.sum_cons]
    omega

theorem weightedDegree_eq_spec (g : Graph) (x : String) :
    weightedDegree g x = specWeightedDegree g x := by
  unfold weightedDegree specWeightedDegree
  rw [foldl_add_fixed]
  rw [Nat.zero_add]
  induction g.edges with
  | nil => rfl
  | cons e rest ih =>
    rw [List.filter_cons, List.map_cons, List.sum_cons]
    by_cases h : e.1.1 = x ∨ e.1.2 = x
    · rw [if_pos (decide_eq_true h), List.map_cons, List.sum_cons, ih,
        if_pos h]
    · rw [if_neg (by simpa using h), ih, if_neg h, Nat.zero_add]

/-! ### Pipeline facts -/

theorem analyzeDoc_error_cases {d : DocRun} {minCo : Nat} {e : String}
    (h : analyzeDoc d minCo = .error e) :
    d.nlpExc = true ∨ d.renderExc = true := by
  unfold analyzeDoc at h
  split at h
  · exact absurd h (by simp)
  · split at h
    · exact absurd h (by simp)
    · split at h
      · exact absurd h (by simp)
      · split at h
        · exact absurd h (by simp)
        · split at h
          · rename_i hnlp
            exact Or.inl (by simpa using hnlp)
          · split at h
            · exact absurd h (by simp)
            · split at h
              · exact absurd h (by simp)
              · split at h
                · rename_i hren
                  exact Or.inr (by simpa using hren)
                · exact absurd h (by simp)

theorem runAll_ok_of_no_exc (minCo : Nat) :
    ∀ (docs : List DocRun),
      (∀ d ∈ docs, d.nlpExc = false ∧ d.renderExc = false) →
      ∃ os : List Outcome,
        runAll docs minCo = .ok os ∧ os.length = docs.length := by
  intro docs
  induction docs with
  | nil => intro _; exact ⟨[], rfl, rfl⟩
  | cons d ds ih =>
    intro hdocs
    obtain ⟨os, hos, hlen⟩ := ih (fun x hx => hdocs x (List.mem_cons_of_mem _ hx))
    cases hd : analyzeDoc d minCo with
    | error e =>
      rcases analyzeDoc_error_cases hd with h | h
      · rw [(hdocs d (List.mem_cons_self ..)).1] at h
        exact absurd h (by simp)
      · rw [(hdocs d (List.mem_cons_self ..)).2] at h
        exact absurd h (by simp)
    | ok o =>
      refine ⟨o :: os, ?_, by simp [hlen]⟩
      simp only [runAll, hd, hos]

theorem analyzeDoc_nlp_error {d : DocRun} (minCo : Nat)
    (h1 : d.loadOk = true) (h2 : d.colOk = true) (h3 : d.procExc = false)
    (h4 : d.rows ≠ []) (h5 : d.nlpExc = true) :
    analyzeDoc d minCo = .error "exception in morphological analysis" := by
  unfold analyzeDoc
  rw [if_neg (by simp [h1]), if_neg (by simp [h3]), if_neg (by simp [h2]),
    if_neg (by simpa using h4), if_pos (by simp [h5])]

theorem runAll_aborts_on_nlp_exc (d : DocRun) (ds : List DocRun) (minCo : Nat)
    (h1 : d.loadOk = true) (h2 : d.colOk = true) (h3 : d.procExc = false)
    (h4 : d.rows ≠ []) (h5 : d.nlpExc = true) :
    runAll (d :: ds) minCo = .error "exception in morphological analysis" := by
  simp only [runAll, analyzeDoc_nlp_error minCo h1 h2 h3 h4 h5]

theorem analyzeDoc_render_error {d : DocRun} (minCo : Nat)
    (h1 : d.loadOk = true) (h2 : d.colOk = true) (h3 : d.procExc = false)
    (h4 : d.rows ≠ []) (h5 : d.nlpExc = false)
    (h6 : coOccurrence (wordsPerSentence d.rows.flatten) ≠ [])
    (h7 : (buildGraph (coOccurrence (wordsPerSentence d.rows.flatten))
      minCo).nodes ≠ [])
    (h8 : d.renderExc = true) :
    analyzeDoc d minCo = .error "exception during rendering" := by
  unfold analyzeDoc
  rw [if_neg (by simp [h1]), if_neg (by simp [h3]), if_neg (by simp [h2]),
    if_neg (by simpa using h4), if_neg (by simp [h5]),
    if_neg (by simpa using h6), if_neg (by simpa using h7),
    if_pos (by simp [h8])]

theorem runAll_aborts_on_render_exc (d : DocRun) (ds : List DocRun)
    (minCo : Nat)
    (h1 : d.loadOk = true) (h2 : d.colOk = true) (h3 : d.procExc = false)
    (h4 : d.rows ≠ []) (h5 : d.nlpExc = false)
    (h6 : coOccurrence (wordsPerSentence d.rows.flatten) ≠ [])
    (h7 : (buildGraph (coOccurrence (wordsPerSentence d.rows.flatten))
      minCo).nodes ≠ [])
    (h8 : d.renderExc = true) :
    runAll (d :: ds) minCo = .error "exception during rendering" := by
  simp only [runAll, analyzeDoc_render_error minCo h1 h2 h3 h4 h5 h6 h7 h8]

/-! ### The claims -/

/-- C1: for every sequence of per-sentence token collections, the counter's
final count for an unordered pair of distinct lemmas equals the number of
sentences whose token set contains both lemmas (each sentence contributing
at most 1 however often either word repeats), and every pair present in the
table has a strictly positive count (so counts are never negative and no
stored count is zero). -/
theorem c1_pair_count_correct (ss : List (List String)) (a b : String)
    (hab : a ≠ b) :
    countOf (coOccurrence ss) (canonPair a b) =
      (ss.filter (fun ws => decide (a ∈ ws ∧ b ∈ ws))).length ∧
    ∀ e ∈ coOccurrence ss, 0 < e.2 := by
  refine ⟨?_, (goodTable_coOccurrence ss).2⟩
  unfold canonPair
  by_cases h : strLt a b = true
  · rw [if_pos h, countOf_coOccurrence_canonical ss a b h]
  · have hba : strLt b a = true := by
      cases hba : strLt b a with
      | true => rfl
      | false =>
        exact absurd (eq_of_strLt_false (by simpa using h) hba) hab
    rw [if_neg (by simpa using h), countOf_coOccurrence_canonical ss b a hba]
    congr 1
    apply List.filter_congr
    intro ws _
    rw [decide_eq_decide]
    exact and_comm

/-- Witness for C1 at a concrete input: in the single sentence
`[cat, dog, cat]` the pair is counted exactly once. -/
theorem c1_pair_count_correct_witness :
    countOf (coOccurrence [["cat", "dog", "cat"]]) (canonPair "cat" "dog") = 1 :=
  (c1_pair_count_correct [["cat", "dog", "cat"]] "cat" "dog"
    (by decide)).1.trans (by decide)

/-- C3: for every well-formed Pair Count Table and positive threshold, the
built graph's edges are exactly the table entries whose count reaches the
threshold (with `weight = count`), a word is a node exactly when it is an
endpoint of such an entry, and consequently every node has an incident
edge — no isolated node is ever created. -/
theorem c3_threshold_filter (table : List ((String × String) × Nat))
    (minCo : Nat) (hpos : 0 < minCo) (hwf : wellFormedTable table) :
    (∀ e, e ∈ (buildGraph table minCo).edges ↔ e ∈ table ∧ minCo ≤ e.2) ∧
    (∀ x, x ∈ (buildGraph table minCo).nodes ↔
      ∃ e ∈ table, minCo ≤ e.2 ∧ (x = e.1.1 ∨ x = e.1.2)) ∧
    (∀ x ∈ (buildGraph table minCo).nodes,
      ∃ e ∈ (buildGraph table minCo).edges, x = e.1.1 ∨ x = e.1.2) := by
  have hedge : ∀ e, e ∈ (buildGraph table minCo).edges ↔
      e ∈ table ∧ minCo ≤ e.2 := by
    intro e
    rw [edges_buildGraph minCo hwf, List.mem_filter]
    simp
  refine ⟨hedge, fun x => mem_nodes_buildGraph, fun x hx => ?_⟩
  obtain ⟨e, he, hw, hxe⟩ := mem_nodes_buildGraph.mp hx
  exact ⟨e, (hedge e).mpr ⟨he, hw⟩, hxe⟩

/-- Witness for C3 at a concrete table and threshold 3: the qualifying pair
is an edge and a word that co-occurs only below threshold yields no node. -/
theorem c3_threshold_filter_witness :
    ((("a", "b"), 3) ∈
      (buildGraph [(("a", "b"), 3), (("a", "c"), 1)] 3).edges) ∧
    "c" ∉ (buildGraph [(("a", "b"), 3), (("a", "c"), 1)] 3).nodes := by
  have h := c3_threshold_filter [(("a", "b"), 3), (("a", "c"), 1)] 3
    (by decide) (by decide)
  refine ⟨(h.1 (("a", "b"), 3)).mpr (by decide), fun hc => ?_⟩
  obtain ⟨e, he, hw, hxe⟩ := (h.2.1 "c").mp hc
  rw [List.mem_cons, List.mem_cons] at he
  rcases he with rfl | rfl | he
  · rcases hxe with hx | hx <;> exact absurd hx (by decide)
  · exact absurd hw (by decide)
  · cases he

/-- C4: raising the threshold by one shrinks the graph: every edge and node
of the graph at `T+1` is an edge resp. node of the graph at `T`, and both
the edge count and the node count never increase. -/
theorem c4_threshold_monotone (table : List ((String × String) × Nat))
    (minCo : Nat) (hwf : wellFormedTable table) :
    (buildGraph table (minCo + 1)).edges ⊆ (buildGraph table minCo).edges ∧
    (buildGraph table (minCo + 1)).nodes ⊆ (buildGraph table minCo).nodes ∧
    (buildGraph table (minCo + 1)).edges.length ≤
      (buildGraph table minCo).edges.length ∧
    (buildGraph table (minCo + 1)).nodes.length ≤
      (buildGraph table minCo).nodes.length := by
  have hsub : List.Sublist (buildGraph table (minCo + 1)).edges
      (buildGraph table minCo).edges := by
    rw [edges_buildGraph (minCo + 1) hwf, edges_buildGraph minCo hwf]
    exact List.monotone_filter_right table
      (fun e h => by simp only [decide_eq_true_eq] at h ⊢; omega)
  have hnodes : (buildGraph table (minCo + 1)).nodes ⊆
      (buildGraph table minCo).nodes := by
    intro x hx
    obtain ⟨e, he, hw, hxe⟩ := mem_nodes_buildGraph.mp hx
    exact mem_nodes_buildGraph.mpr ⟨e, he, by omega, hxe⟩
  refine ⟨hsub.subset, hnodes, hsub.length_le, ?_⟩
  exact (List.subperm_of_subset
    (nodes_buildGraph_nodup table (minCo + 1)) hnodes).length_le

/-- Witness for C4 at a concrete table: thresholds 3 vs 2. -/
theorem c4_threshold_monotone_witness :
    (buildGraph [(("a", "b"), 3), (("a", "c"), 2), (("b", "c"), 1)] 3).edges.length ≤
      (buildGraph [(("a", "b"), 3), (("a", "c"), 2), (("b", "c"), 1)] 2).edges.length ∧
    (buildGraph [(("a", "b"), 3), (("a", "c"), 2), (("b", "c"), 1)] 3).nodes.length ≤
      (buildGraph [(("a", "b"), 3), (("a", "c"), 2), (("b", "c"), 1)] 2).nodes.length :=
  ⟨(c4_threshold_monotone [(("a", "b"), 3), (("a", "c"), 2), (("b", "c"), 1)] 2
      (by decide)).2.2.1,
   (c4_threshold_monotone [(("a", "b"), 3), (("a", "c"), 2), (("b", "c"), 1)] 2
      (by decide)).2.2.2⟩

/-- C5: the counter never stores a pair of a word with itself, whatever the
repetitions in the sentences, and consequently the built graph contains no
self-loop edge. -/
theorem c5_no_self_pairs (ss : List (List String)) (minCo : Nat) (w : String) :
    (w, w) ∉ (coOccurrence ss).map Prod.fst ∧
    ∀ e ∈ (buildGraph (coOccurrence ss) minCo).edges, e.1.1 ≠ e.1.2 := by
  have hg := goodTable_coOccurrence ss
  constructor
  · intro hmem
    have hlt := hg.1.2 (w, w) hmem
    rw [strLt_irrefl] at hlt
    exact absurd hlt (by simp)
  · intro e he
    rw [edges_buildGraph minCo hg.1] at he
    exact ne_of_strlt (hg.1.2 e.1 (List.mem_map_of_mem Prod.fst
      (List.mem_of_mem_filter he)))

/-- C6: the two orderings of an unordered pair share one canonical table
entry: the canonical key is symmetric in its arguments, lookups through it
agree, and the key set never contains both orderings of the same pair. -/
theorem c6_no_reversed_keys (ss : List (List String)) (a b : String) :
    canonPair a b = canonPair b a ∧
    countOf (coOccurrence ss) (canonPair a b) =
      countOf (coOccurrence ss) (canonPair b a) ∧
    ((a, b) ∈ (coOccurrence ss).map Prod.fst →
      (b, a) ∉ (coOccurrence ss).map Prod.fst) := by
  have hg := goodTable_coOccurrence ss
  have hcanon : canonPair a b = canonPair b a := by
    unfold canonPair
    by_cases h : strLt a b = true
    · rw [if_pos h, if_neg (by rw [strLt_asymm h]; simp)]
    · by_cases h' : strLt b a = true
      · rw [if_neg (by simpa using h), if_pos h']
      · have he : a = b :=
          eq_of_strLt_false (by simpa using h) (by simpa using h')
        subst he
        rfl
  refine ⟨hcanon, by rw [hcanon], fun hab hba => ?_⟩
  have h1 : strLt a b = true := hg.1.2 (a, b) hab
  have h2 : strLt b a = true := hg.1.2 (b, a) hba
  rw [strLt_asymm h2] at h1
  exact absurd h1 (by simp)

/-- C2 counterexample: a concrete run of two documents where an exception in
the first document's morphological analysis escapes `analyze_and_create_network`
and the `__main__` loop alike, so the run aborts and the second (perfectly
processable) document is never reached — the claimed catch at the document
boundary does not exist. -/
theorem c2_counterexample :
    runAll [⟨true, true, false, [[["a", "b"]]], true, false⟩,
            ⟨true, true, false, [[["a", "b"]]], false, false⟩]
        MIN_COOCCURRENCE =
      Except.error "exception in morphological analysis" := by
  rfl

/-- C2 amended: decode/parse failures of the loader and exceptions in the
column-selection/`dropna` block are consumed and become per-document skips,
so a run whose documents raise no exception in morphological analysis or
rendering always completes with one outcome per document; but an exception
raised during morphological analysis, and likewise one raised while
rendering a document that reaches the drawing step, is not caught at the
document boundary: it propagates out of the per-document call and aborts
processing of all remaining documents. -/
theorem c2_error_isolation :
    (∀ (docs : List DocRun) (minCo : Nat),
      (∀ d ∈ docs, d.nlpExc = false ∧ d.renderExc = false) →
      ∃ os : List Outcome,
        runAll docs minCo = .ok os ∧ os.length = docs.length) ∧
    (∀ (d : DocRun) (ds : List DocRun) (minCo : Nat),
      d.loadOk = true → d.colOk = true → d.procExc = false →
      d.rows ≠ [] → d.nlpExc = true →
      runAll (d :: ds) minCo =
        .error "exception in morphological analysis") ∧
    (∀ (d : DocRun) (ds : List DocRun) (minCo : Nat),
      d.loadOk = true → d.colOk = true → d.procExc = false →
      d.rows ≠ [] → d.nlpExc = false →
      coOccurrence (wordsPerSentence d.rows.flatten) ≠ [] →
      (buildGraph (coOccurrence (wordsPerSentence d.rows.flatten))
        minCo).nodes ≠ [] →
      d.renderExc = true →
      runAll (d :: ds) minCo = .error "exception during rendering") :=
  ⟨fun docs minCo h => runAll_ok_of_no_exc minCo docs h,
   fun d ds minCo h1 h2 h3 h4 h5 =>
     runAll_aborts_on_nlp_exc d ds minCo h1 h2 h3 h4 h5,
   fun d ds minCo h1 h2 h3 h4 h5 h6 h7 h8 =>
     runAll_aborts_on_render_exc d ds minCo h1 h2 h3 h4 h5 h6 h7 h8⟩

/-- Witness for C2 amended at concrete runs: an exception-free document list
completes, a document with a morphological-analysis exception aborts, and a
document whose graph reaches the drawing step with a failing renderer
aborts too. -/
theorem c2_error_isolation_witness :
    (∃ os : List Outcome,
      runAll [⟨true, true, false, [[["a", "b"]]], false, false⟩] 3 = .ok os ∧
      os.length = 1) ∧
    runAll [⟨true, true, false, [[["a", "b"]]], true, false⟩] 3 =
      .error "exception in morphological analysis" ∧
    runAll [⟨true, true, false,
        [[["a", "b"], ["a", "b"], ["a", "b"]]], false, true⟩] 3 =
      .error "exception during rendering" :=
  ⟨c2_error_isolation.1 [⟨true, true, false, [[["a", "b"]]], false, false⟩] 3
      (by decide),
   c2_error_isolation.2.1 ⟨true, true, false, [[["a", "b"]]], true, false⟩ [] 3
      rfl rfl rfl (by simp) rfl,
   c2_error_isolation.2.2
      ⟨true, true, false, [[["a", "b"], ["a", "b"], ["a", "b"]]], false, true⟩
      [] 3 rfl rfl rfl (by simp) rfl (by decide) (by decide) rfl⟩

/-- C7: under normal loading, a document with zero eligible sentences gives
an empty count table; an empty table is reported as the informational
`skippedNoPairs` outcome, and a non-empty table whose graph has no node is
reported as the informational `skippedEmptyGraph` outcome — in both cases a
normal return (never an exception) and rendering is skipped, whatever the
renderer would have done. -/
theorem c7_empty_result_outcomes (d : DocRun) (minCo : Nat)
    (h1 : d.loadOk = true) (h2 : d.colOk = true) (h3 : d.procExc = false)
    (h4 : d.rows ≠ []) (h5 : d.nlpExc = false) :
    (wordsPerSentence d.rows.flatten = [] →
      coOccurrence (wordsPerSentence d.rows.flatten) = []) ∧
    (coOccurrence (wordsPerSentence d.rows.flatten) = [] →
      analyzeDoc d minCo = .ok .skippedNoPairs) ∧
    (coOccurrence (wordsPerSentence d.rows.flatten) ≠ [] →
      (buildGraph (coOccurrence (wordsPerSentence d.rows.flatten))
          minCo).nodes = [] →
      analyzeDoc d minCo = .ok .skippedEmptyGraph) := by
  refine ⟨fun he => by rw [he]; rfl, fun he => ?_, fun hne hg => ?_⟩
  · unfold analyzeDoc
    rw [if_neg (by simp [h1]), if_neg (by simp [h3]), if_neg (by simp [h2]),
      if_neg (by simpa using h4), if_neg (by simp [h5]),
      if_pos (by simp [he])]
  · unfold analyzeDoc
    rw [if_neg (by simp [h1]), if_neg (by simp [h3]), if_neg (by simp [h2]),
      if_neg (by simpa using h4), if_neg (by simp [h5]),
      if_neg (by simpa using hne), if_pos (by simp [hg])]

/-- Witness for C7 at concrete documents (with a renderer that would raise,
showing rendering is skipped): one with a single one-token sentence (empty
table), one with a single pair below the threshold (zero-node graph). -/
theorem c7_empty_result_outcomes_witness :
    analyzeDoc ⟨true, true, false, [[["a"]]], false, true⟩ 3 =
      .ok .skippedNoPairs ∧
    analyzeDoc ⟨true, true, false, [[["a", "b"]]], false, true⟩ 3 =
      .ok .skippedEmptyGraph :=
  ⟨(c7_empty_result_outcomes ⟨true, true, false, [[["a"]]], false, true⟩ 3
      rfl rfl rfl (by simp) rfl).2.1 (by decide),
   (c7_empty_result_outcomes ⟨true, true, false, [[["a", "b"]]], false, true⟩ 3
      rfl rfl rfl (by simp) rfl).2.2 (by decide) (by decide)⟩

/-- C8: the visual attributes are pure functions of the graph with the two
distinct constant scale factors of the source: every node's size is its
weighted degree (the sum of the weights of its incident edges) times 100,
and every edge's width is its weight times 1/2. -/
theorem c8_visual_attributes (g : Graph) :
    nodeSize g = g.nodes.map (fun x => specWeightedDegree g x * 100) ∧
    edgeWidth g = g.edges.map (fun e => (e.2 : ℚ) / 2) := by
  constructor
  · unfold nodeSize
    exact List.map_congr_left (fun x _ => by rw [weightedDegree_eq_spec])
  · unfold edgeWidth
    exact List.map_congr_left (fun e _ => by rw [mul_one_div])

/-- C9 counterexample (negation of the claim): there is no per-sentence
token sequence — with or without repeated lemmas — on which the counter's
results differ from those on the repetition-free version: the counter
deduplicates internally via the set conversion, so the claimed input
constraint does not exist in the code. -/
theorem c9_counterexample :
    ¬ ∃ (ss : List (List String)) (q : String × String),
        (∃ ws ∈ ss, ¬ ws.Nodup) ∧
        countOf (coOccurrence ss) q ≠
          countOf (coOccurrence (ss.map List.dedup)) q := by
  rintro ⟨ss, q, -, hne⟩
  exact hne (by rw [coOccurrence_dedup_invariant])

/-- C9 amended: the counter deduplicates its input internally (each
sentence's tokens pass through a set conversion before pairing), so for
every token sequence the whole count table — hence every pair count — is
unchanged when within-sentence repetitions are removed; callers need not
deduplicate. -/
theorem c9_internal_dedup (ss : List (List String)) :
    coOccurrence (ss.map List.dedup) = coOccurrence ss ∧
    ∀ q : String × String,
      countOf (coOccurrence (ss.map List.dedup)) q =
        countOf (coOccurrence ss) q :=
  ⟨coOccurrence_dedup_invariant ss,
   fun _ => by rw [coOccurrence_dedup_invariant]⟩

/-- C10: the retention filter keeps a sentence exactly when its raw token
list is longer than 1, which differs from filtering on the distinct-lemma
count (witness `[cat, cat]`); nevertheless the two filters produce the same
count table on every input, because a kept sentence with at most one
distinct lemma contributes no pair. -/
theorem c10_filter_equivalence :
    (∃ ws : List String, 1 < ws.length ∧ ¬ 1 < ws.dedup.length) ∧
    ∀ ss : List (List String),
      coOccurrence (wordsPerSentence ss) =
        coOccurrence (ss.filter (fun ws => decide (1 < ws.dedup.length))) := by
  refine ⟨⟨["cat", "cat"], by decide, by decide⟩, fun ss => ?_⟩
  unfold coOccurrence wordsPerSentence
  exact coOccurrence_filter_equiv ss []

end Kyouyuunet
